import Mathlib

/-!
Verification development for the ur-connect repository.

Rust strings are embedded as `List Char`; machine-independent library
behaviour (the `ical` event-stream parser, the `url` crate, the HTML
entity decoder and the local time zone) is either modelled concretely or
abstracted as an explicit function parameter, as noted at each definition.
Source files embedded here: src/model.rs, src/parsing/ics.rs,
src/parsing/dom.rs.
-/

set_option autoImplicit false

/-- Convenience conversion from a Lean string literal to the `List Char`
representation used for Rust strings throughout this file. -/
def chars (s : String) : List Char := s.toList

/-- ASCII lower-casing of one character, as Rust `char::to_ascii_lowercase`. -/
def asciiLower (c : Char) : Char :=
  if 'A' ≤ c ∧ c ≤ 'Z' then Char.ofNat (c.toNat + 32) else c

/-- ASCII upper-casing of one character, as Rust `char::to_ascii_uppercase`. -/
def asciiUpper (c : Char) : Char :=
  if 'a' ≤ c ∧ c ≤ 'z' then Char.ofNat (c.toNat - 32) else c

/-- Whitespace predicate modelling Rust `char::is_whitespace` on the
code points that can actually occur in the inputs considered here
(the ASCII whitespace characters and NBSP). -/
def isWsp (c : Char) : Bool :=
  c == ' ' || c == '\t' || c == '\n' || c == '\r' ||
    c.toNat == 11 || c.toNat == 12 || c.toNat == 160

/-- Left trim, as the leading half of Rust `str::trim`. -/
def trimLeft (s : List Char) : List Char := s.dropWhile isWsp

/-- Right trim, as the trailing half of Rust `str::trim`. -/
def trimRight (s : List Char) : List Char := (s.reverse.dropWhile isWsp).reverse

/-- Rust `str::trim`: removes whitespace from both ends. -/
def trim (s : List Char) : List Char := trimLeft (trimRight s)

/-- Splits `s` at the first occurrence of the pattern `pat`, returning the
text before and after it; `none` when `pat` does not occur in `s`.
This models Rust `str::find` followed by slicing around the match. -/
def splitAtSub (pat : List Char) : List Char → Option (List Char × List Char)
  | [] => if pat.isPrefixOf [] then some ([], []) else none
  | c :: rest =>
    if pat.isPrefixOf (c :: rest) then some ([], (c :: rest).drop pat.length)
    else (splitAtSub pat rest).map (fun p => (c :: p.1, p.2))

/-- Substring test, as Rust `str::contains`. -/
def containsSub (pat s : List Char) : Bool := (splitAtSub pat s).isSome

/-- Rust `str::split(sep)` for a one-character separator: always returns at
least one (possibly empty) piece. -/
def splitOnChar (sep : Char) (s : List Char) : List (List Char) :=
  s.foldr
    (fun c acc =>
      match acc with
      | [] => if c == sep then [[], []] else [[c]]
      | w :: ws => if c == sep then [] :: w :: ws else (c :: w) :: ws)
    [[]]

/-- Maximal whitespace-free words of a string, as Rust
`str::split_whitespace`. -/
def words (s : List Char) : List (List Char) :=
  (s.foldr
    (fun c acc =>
      if isWsp c then [] :: acc
      else
        match acc with
        | [] => [[c]]
        | w :: ws => (c :: w) :: ws)
    []).filter (fun w => !w.isEmpty)

/-- ASCII-alphanumeric predicate, as Rust `char::is_ascii_alphanumeric`. -/
def isAsciiAlnum (c : Char) : Bool :=
  ('0' ≤ c ∧ c ≤ '9') ∨ ('a' ≤ c ∧ c ≤ 'z') ∨ ('A' ≤ c ∧ c ≤ 'Z')

/-- ASCII-digit predicate. -/
def isDigitCh (c : Char) : Bool := '0' ≤ c ∧ c ≤ '9'

/- ===================== src/model.rs ===================== -/

/-- Recurrence enum from src/model.rs. -/
inductive Recurrence where
  | Daily : Recurrence
  | Weekly : Recurrence
  | Monthly : Recurrence
  | Yearly : Recurrence
  | Custom : List Char → Recurrence
deriving DecidableEq, Repr

/-- Embeds `Recurrence::from_freq` (src/model.rs lines 74-83): the token is
ASCII-uppercased, matched against the closed set, any other non-empty
uppercased token becomes `Custom`, the empty token yields `none`. -/
def Recurrence.from_freq (freq : List Char) : Option Recurrence :=
  let upper := freq.map asciiUpper
  if upper = chars "DAILY" then some .Daily
  else if upper = chars "WEEKLY" then some .Weekly
  else if upper = chars "MONTHLY" then some .Monthly
  else if upper = chars "YEARLY" then some .Yearly
  else if upper ≠ [] then some (.Custom upper)
  else none

/-- Embeds `impl Display for Recurrence` (src/model.rs lines 86-96). -/
def Recurrence.display : Recurrence → List Char
  | .Daily => chars "Daily"
  | .Weekly => chars "Weekly"
  | .Monthly => chars "Monthly"
  | .Yearly => chars "Yearly"
  | .Custom value => value

/-- TimetableEntry struct from src/model.rs. -/
structure TimetableEntry where
  date : List Char
  time : List Char
  title : List Char
  location : List Char
  recurrence : Option Recurrence
deriving DecidableEq, Repr

/-- Embeds `impl Display for TimetableEntry` (src/model.rs lines 31-62):
non-empty date/time/title pushed in order and joined with spaces, then the
location segment, then the recurrence segment. -/
def TimetableEntry.display (e : TimetableEntry) : List Char :=
  let parts :=
    (if e.date.isEmpty then [] else [e.date]) ++
    (if e.time.isEmpty then [] else [e.time]) ++
    (if e.title.isEmpty then [] else [e.title])
  let line := List.intercalate (chars " ") parts
  let line :=
    if e.location.isEmpty then line
    else if line.isEmpty then e.location
    else line ++ chars " @ " ++ e.location
  match e.recurrence with
  | some rule => if line.isEmpty then rule.display else line ++ chars " • " ++ rule.display
  | none => line

/- ===================== RRULE handling (src/parsing/ics.rs) ===================== -/

/-- Key/value split of one `;`-part of an RRULE, as the Rust
`part.splitn(2, '=')` followed by trimming and upper-casing the key and
trimming the value (src/parsing/ics.rs lines 84-86); a part with no `=`
yields the empty value, as `iter.next().unwrap_or("")` does. -/
def partKeyVal (part : List Char) : List Char × List Char :=
  match splitAtSub ['='] part with
  | some kv => ((trim kv.1).map asciiUpper, trim kv.2)
  | none => ((trim part).map asciiUpper, [])

/-- Helper for `recurrence_from_rule`: walks the `;`-separated parts and at
the first part whose key is `FREQ` returns `Recurrence::from_freq` of its
value, exactly as the early-returning loop in src/parsing/ics.rs
lines 83-90. -/
def recurrenceFromParts : List (List Char) → Option Recurrence
  | [] => none
  | part :: rest =>
    if (partKeyVal part).1 = chars "FREQ" then Recurrence.from_freq (partKeyVal part).2
    else recurrenceFromParts rest

/-- Embeds `recurrence_from_rule` (src/parsing/ics.rs lines 82-92). -/
def recurrence_from_rule (rule : List Char) : Option Recurrence :=
  recurrenceFromParts (splitOnChar ';' rule)

/-- Specification-side reading of the rule walk: the value of the first
`FREQ` key of a part list, and nothing else. -/
def firstFreqOfParts : List (List Char) → Option (List Char)
  | [] => none
  | part :: rest =>
    if (partKeyVal part).1 = chars "FREQ" then some (partKeyVal part).2
    else firstFreqOfParts rest

/-- Specification-side description of the data `recurrence_from_rule` reads
from the rule: the (trimmed) value of the first `FREQ` key. -/
def firstFreqValue (rule : List Char) : Option (List Char) :=
  firstFreqOfParts (splitOnChar ';' rule)

theorem recurrence_from_rule_eq_bind (rule : List Char) :
    recurrence_from_rule rule = (firstFreqValue rule).bind Recurrence.from_freq := by
  unfold recurrence_from_rule firstFreqValue
  generalize splitOnChar ';' rule = parts
  induction parts with
  | nil => rfl
  | cons part rest ih =>
    by_cases h : (partKeyVal part).1 = chars "FREQ"
    · simp [recurrenceFromParts, firstFreqOfParts, h]
    · simp [recurrenceFromParts, firstFreqOfParts, h, ih]

/- ===================== Claims C3, C7, C8 ===================== -/

/-- Specification-side rendering of an entry: non-empty date/time/title
joined with single spaces, location appended as an at-segment (location
alone when the joined line is empty), and, when a recurrence exists, the
bullet segment appended to a non-empty line while an entry that is
otherwise entirely empty renders as the recurrence text alone. -/
def displaySpec (e : TimetableEntry) : List Char :=
  let line := List.intercalate (chars " ")
    ([e.date, e.time, e.title].filter (fun s => !s.isEmpty))
  let line2 :=
    if e.location.isEmpty then line
    else if line.isEmpty then e.location
    else line ++ chars " @ " ++ e.location
  match e.recurrence with
  | some rule => if line2.isEmpty then rule.display else line2 ++ chars " • " ++ rule.display
  | none => line2

/-- Claim C8, counterexample: on an entry whose date, time, title and
location are all empty but which carries a recurrence, the code renders the
recurrence text alone, not the claimed appended bullet segment. -/
theorem C8_display_counterexample :
    TimetableEntry.display ⟨[], [], [], [], some .Weekly⟩ = chars "Weekly" ∧
    chars "Weekly" ≠ chars " • Weekly" := by
  exact ⟨rfl, by decide⟩

/-- Claim C8 (amended): rendering joins the non-empty date, time and title
with single spaces; a non-empty location is appended as an at-segment, or is
the whole rendering when date, time and title are all empty; a recurrence
appends a bullet segment to a non-empty line, and an entry that is empty
apart from its recurrence renders as the recurrence text alone. -/
theorem C8_display_spec (e : TimetableEntry) :
    TimetableEntry.display e = displaySpec e := by
  have hparts : [e.date, e.time, e.title].filter (fun s => !s.isEmpty) =
      (if e.date.isEmpty then [] else [e.date]) ++
      (if e.time.isEmpty then [] else [e.time]) ++
      (if e.title.isEmpty then [] else [e.title]) := by
    cases hd : e.date.isEmpty <;> cases ht : e.time.isEmpty <;>
      cases hti : e.title.isEmpty <;> simp [List.filter, hd, ht, hti]
  simp only [TimetableEntry.display, displaySpec, hparts]

/-- Claim C3, counterexample: the frequency token `biweekly` is not kept
character for character; the derived custom recurrence carries the
ASCII-uppercased token. -/
theorem C3_custom_counterexample :
    recurrence_from_rule (chars "FREQ=biweekly") = some (.Custom (chars "BIWEEKLY")) ∧
    chars "BIWEEKLY" ≠ chars "biweekly" := by
  exact ⟨rfl, by decide⟩

/-- Claim C3 (amended): an RRULE whose first FREQ value, trimmed and
ASCII-uppercased, is non-empty and none of DAILY/WEEKLY/MONTHLY/YEARLY
derives the Custom recurrence carrying the uppercased token, and that
Custom recurrence renders as exactly that uppercased token. -/
theorem C3_custom_upper (rule v : List Char)
    (hv : firstFreqValue rule = some v) (hne : v ≠ [])
    (h1 : v.map asciiUpper ≠ chars "DAILY")
    (h2 : v.map asciiUpper ≠ chars "WEEKLY")
    (h3 : v.map asciiUpper ≠ chars "MONTHLY")
    (h4 : v.map asciiUpper ≠ chars "YEARLY") :
    recurrence_from_rule rule = some (.Custom (v.map asciiUpper)) ∧
    Recurrence.display (.Custom (v.map asciiUpper)) = v.map asciiUpper := by
  constructor
  · rw [recurrence_from_rule_eq_bind, hv]
    have hmap : v.map asciiUpper ≠ [] := by
      intro h
      exact hne (List.map_eq_nil_iff.mp h)
    simp [Recurrence.from_freq, h1, h2, h3, h4, hmap]
    exact hne
  · rfl

/-- Witness for C3_custom_upper at the rule FREQ=biweekly;X=1. -/
theorem C3_custom_upper_witness :
    recurrence_from_rule (chars "FREQ=biweekly;X=1") =
      some (.Custom ((chars "biweekly").map asciiUpper)) ∧
    Recurrence.display (.Custom ((chars "biweekly").map asciiUpper)) =
      (chars "biweekly").map asciiUpper :=
  C3_custom_upper (chars "FREQ=biweekly;X=1") (chars "biweekly")
    (by decide) (by decide) (by decide) (by decide) (by decide) (by decide)

/-- Claim C7: the weekly rule derives Weekly; an empty FREQ value or a rule
with no FREQ key derives nothing; and a derived recurrence always comes
from a non-empty first FREQ value. -/
theorem C7_recurrence_rule :
    recurrence_from_rule (chars "FREQ=WEEKLY;BYDAY=TU") = some .Weekly ∧
    recurrence_from_rule (chars "FREQ=;BYDAY=TU") = none ∧
    (∀ rule, firstFreqValue rule = none → recurrence_from_rule rule = none) ∧
    (∀ rule r, recurrence_from_rule rule = some r →
      ∃ v, firstFreqValue rule = some v ∧ v ≠ []) := by
  refine ⟨by decide, by decide, ?_, ?_⟩
  · intro rule h
    rw [recurrence_from_rule_eq_bind, h]
    rfl
  · intro rule r h
    rw [recurrence_from_rule_eq_bind] at h
    cases hv : firstFreqValue rule with
    | none =>
      rw [hv] at h
      cases h
    | some v =>
      refine ⟨v, rfl, ?_⟩
      rintro rfl
      rw [hv] at h
      have hnil : Recurrence.from_freq [] = none := by decide
      simp only [Option.bind, hnil] at h
      cases h

/-- Witness for the universally quantified parts of C7_recurrence_rule. -/
theorem C7_recurrence_rule_witness :
    recurrence_from_rule (chars "BYDAY=TU;INTERVAL=2") = none :=
  C7_recurrence_rule.2.2.1 (chars "BYDAY=TU;INTERVAL=2") (by decide)

/- ===================== date/time model (chrono) ===================== -/

/-- Naive (zone-free) calendar date and time, modelling chrono
`NaiveDateTime`. -/
structure NaiveDT where
  year : Int
  month : Nat
  day : Nat
  hour : Nat
  minute : Nat
  second : Nat
deriving DecidableEq, Repr

/-- Days since 1970-01-01 of a proleptic Gregorian date (standard
civil-from-days inverse, floor-division form). -/
def daysFromCivil (y : Int) (m d : Nat) : Int :=
  let y2 := if m ≤ 2 then y - 1 else y
  let era := Int.fdiv y2 400
  let yoe := y2 - era * 400
  let mp : Nat := if m > 2 then m - 3 else m + 9
  let doy : Nat := (153 * mp + 2) / 5 + d - 1
  let doe : Int := yoe * 365 + Int.fdiv yoe 4 - Int.fdiv yoe 100 + (doy : Int)
  era * 146097 + doe - 719468

/-- Proleptic Gregorian date of a days-since-epoch count. -/
def civilFromDays (z0 : Int) : Int × Nat × Nat :=
  let z := z0 + 719468
  let era := Int.fdiv z 146097
  let doe := z - era * 146097
  let yoe := Int.fdiv (doe - Int.fdiv doe 1460 + Int.fdiv doe 36524 - Int.fdiv doe 146096) 365
  let y := yoe + era * 400
  let doy := doe - (365 * yoe + Int.fdiv yoe 4 - Int.fdiv yoe 100)
  let mp := Int.fdiv (5 * doy + 2) 153
  let d := doy - Int.fdiv (153 * mp + 2) 5 + 1
  let m := if mp < 10 then mp + 3 else mp - 9
  (if m ≤ 2 then y + 1 else y, m.toNat, d.toNat)

/-- Seconds since the epoch of a naive date-time read as UTC; instants of
chrono `DateTime` values are represented by this timestamp throughout
(chrono `Utc.from_utc_datetime` followed by `timestamp()`). -/
def naiveTs (n : NaiveDT) : Int :=
  daysFromCivil n.year n.month n.day * 86400 +
    ((3600 * n.hour + 60 * n.minute + n.second : Nat) : Int)

/-- Naive civil date-time of an epoch timestamp. -/
def civilOfTs (i : Int) : NaiveDT :=
  let days := Int.fdiv i 86400
  let sod := (i - 86400 * days).toNat
  let ymd := civilFromDays days
  ⟨ymd.1, ymd.2.1, ymd.2.2, sod / 3600, sod % 3600 / 60, sod % 60⟩

/-- Result of interpreting a naive time in a time zone, modelling chrono
`LocalResult` over instants: a unique instant, two candidate instants
around a daylight-saving fallback, or no instant (spring-forward gap). -/
inductive LocalResult where
  | single : Int → LocalResult
  | ambiguous : Int → Int → LocalResult
  | nothing : LocalResult
deriving DecidableEq, Repr

/-- Abstract model of the process's local time zone (chrono `Local`):
`lookup` models `Local.from_local_datetime`, and `civil` models converting
an instant to its local wall-clock date-time for display. -/
structure LocalTz where
  lookup : NaiveDT → LocalResult
  civil : Int → NaiveDT

/-- Embeds `to_local_datetime` (src/parsing/ics.rs lines 136-148): a unique
local interpretation is used as is; of two ambiguous candidates the one
with the smaller timestamp is kept; a nonexistent local time is
reinterpreted as UTC. -/
def to_local_datetime (tz : LocalTz) (naive : NaiveDT) : Int :=
  match tz.lookup naive with
  | .single i => i
  | .ambiguous a b => if a ≤ b then a else b
  | .nothing => naiveTs naive

/-- Numeric value of an ASCII digit. -/
def digVal (c : Char) : Nat := c.toNat - 48

/-- Two-digit number. -/
def dig2 (a b : Char) : Nat := 10 * digVal a + digVal b

/-- Four-digit number. -/
def dig4 (a b c d : Char) : Nat := 100 * dig2 a b + dig2 c d

/-- Proleptic Gregorian leap-year test. -/
def isLeap (y : Int) : Bool :=
  (Int.emod y 4 == 0 && !(Int.emod y 100 == 0)) || Int.emod y 400 == 0

/-- Length of a month. -/
def daysInMonth (y : Int) (m : Nat) : Nat :=
  if m = 2 then (if isLeap y then 29 else 28)
  else if m = 4 ∨ m = 6 ∨ m = 9 ∨ m = 11 then 30
  else 31

/-- Builds a naive date-time after the calendar validity checks chrono
performs (leap seconds are not modelled). -/
def mkNaiveValid (y : Int) (mo da h mi s : Nat) : Option NaiveDT :=
  if 1 ≤ mo ∧ mo ≤ 12 ∧ 1 ≤ da ∧ da ≤ daysInMonth y mo ∧ h < 24 ∧ mi < 60 ∧ s < 60 then
    some ⟨y, mo, da, h, mi, s⟩
  else none

/-- Models chrono `NaiveDateTime::parse_from_str` for the two compact
formats tried by `parse_ics_date`: `%Y%m%dT%H%M%S`, then `%Y%m%dT%H%M`
with the seconds defaulting to zero; the whole input must be consumed. -/
def parseCompactDateTime (v : List Char) : Option NaiveDT :=
  match v with
  | [y1, y2, y3, y4, mo1, mo2, da1, da2, 'T', h1, h2, mi1, mi2, s1, s2] =>
    if [y1, y2, y3, y4, mo1, mo2, da1, da2, h1, h2, mi1, mi2, s1, s2].all isDigitCh then
      mkNaiveValid (dig4 y1 y2 y3 y4) (dig2 mo1 mo2) (dig2 da1 da2)
        (dig2 h1 h2) (dig2 mi1 mi2) (dig2 s1 s2)
    else none
  | [y1, y2, y3, y4, mo1, mo2, da1, da2, 'T', h1, h2, mi1, mi2] =>
    if [y1, y2, y3, y4, mo1, mo2, da1, da2, h1, h2, mi1, mi2].all isDigitCh then
      mkNaiveValid (dig4 y1 y2 y3 y4) (dig2 mo1 mo2) (dig2 da1 da2)
        (dig2 h1 h2) (dig2 mi1 mi2) 0
    else none
  | _ => none

/-- Models chrono `NaiveDate::parse_from_str` with `%Y%m%d` followed by
`and_hms_opt(0, 0, 0)`: a bare date becomes midnight. -/
def parseCompactDate (v : List Char) : Option NaiveDT :=
  match v with
  | [y1, y2, y3, y4, mo1, mo2, da1, da2] =>
    if [y1, y2, y3, y4, mo1, mo2, da1, da2].all isDigitCh then
      mkNaiveValid (dig4 y1 y2 y3 y4) (dig2 mo1 mo2) (dig2 da1 da2) 0 0 0
    else none
  | _ => none

/-- Offset tail of an RFC 3339 timestamp: `Z`/`z` or a signed `HH:MM`
offset, returned in seconds. -/
def parseRfcOffset : List Char → Option Int
  | ['Z'] => some 0
  | ['z'] => some 0
  | [sgn, o1, o2, ':', o3, o4] =>
    if (sgn == '+' || sgn == '-') && [o1, o2, o3, o4].all isDigitCh then
      let hh := dig2 o1 o2
      let mm := dig2 o3 o4
      if hh < 24 && mm < 60 then
        let secs : Int := ((3600 * hh + 60 * mm : Nat) : Int)
        some (if sgn == '-' then -secs else secs)
      else none
    else none
  | _ => none

/-- Optional fractional seconds (ignored) followed by the offset. -/
def parseRfcTail (rest : List Char) : Option Int :=
  match rest with
  | '.' :: r =>
    if (r.takeWhile isDigitCh).isEmpty then none
    else parseRfcOffset (r.dropWhile isDigitCh)
  | other => parseRfcOffset other

/-- Models chrono `DateTime::parse_from_rfc3339` (no leap seconds): a
`YYYY-MM-DDTHH:MM:SS` body, optional fractional seconds, and an offset;
returns the naive body together with the offset in seconds. -/
def parseRfc3339 (v : List Char) : Option (NaiveDT × Int) :=
  match v with
  | y1 :: y2 :: y3 :: y4 :: '-' :: mo1 :: mo2 :: '-' :: da1 :: da2 :: 'T' ::
      h1 :: h2 :: ':' :: mi1 :: mi2 :: ':' :: s1 :: s2 :: rest =>
    if [y1, y2, y3, y4, mo1, mo2, da1, da2, h1, h2, mi1, mi2, s1, s2].all isDigitCh then
      match mkNaiveValid (dig4 y1 y2 y3 y4) (dig2 mo1 mo2) (dig2 da1 da2)
          (dig2 h1 h2) (dig2 mi1 mi2) (dig2 s1 s2) with
      | some n =>
        match parseRfcTail rest with
        | some off => some (n, off)
        | none => none
      | none => none
    else none
  | _ => none

/-- Shared tail of `parse_ics_date` after the parameter prefix has been
removed (src/parsing/ics.rs lines 100-133): empty value fails; a value with
a trailing `Z` is parsed with the compact formats and read as UTC; any
other value is parsed with the compact formats and interpreted as local
time, falling back to the RFC 3339 format whose own offset is applied. -/
def parseIcsValue (tz : LocalTz) (value : List Char) : Option Int :=
  if value = [] then none
  else if value.getLast? = some 'Z' then
    match parseCompactDateTime value.dropLast with
    | some n => some (naiveTs n)
    | none =>
      match parseCompactDate value.dropLast with
      | some n => some (naiveTs n)
      | none => none
  else
    match parseCompactDateTime value with
    | some n => some (to_local_datetime tz n)
    | none =>
      match parseCompactDate value with
      | some n => some (to_local_datetime tz n)
      | none =>
        match parseRfc3339 value with
        | some p => some (naiveTs p.1 - p.2)
        | none => none

/-- Embeds `parse_ics_date` (src/parsing/ics.rs lines 94-134): the raw
value is trimmed, everything up to the first colon is discarded (and the
rest trimmed again), and the remaining value is parsed by `parseIcsValue`. -/
def parse_ics_date (tz : LocalTz) (raw : List Char) : Option Int :=
  let trimmed := trim raw
  let value :=
    match splitAtSub [':'] trimmed with
    | some p => trim p.2
    | none => trimmed
  parseIcsValue tz value

/-- Modelled from the spec: the variant of `parse_ics_date` the spec
describes, which discards everything up to the last colon ("parameterized
values are accepted by discarding everything up to the final colon")
instead of the first. -/
def parse_ics_date_lastColon (tz : LocalTz) (raw : List Char) : Option Int :=
  let trimmed := trim raw
  let value :=
    if trimmed.contains ':' then
      trim (trimmed.reverse.takeWhile (fun c => !(c == ':'))).reverse
    else trimmed
  parseIcsValue tz value

/-- Concrete local time zone behaving like UTC: every naive time has the
unique interpretation equal to its UTC reading. -/
def tzUTC : LocalTz :=
  ⟨fun n => .single (naiveTs n), fun i => civilOfTs i⟩

/-- Concrete local time zone with a fixed +01:00 offset. -/
def tzPlus1 : LocalTz :=
  ⟨fun n => .single (naiveTs n - 3600), fun i => civilOfTs (i + 3600)⟩

/- ===================== Claims C2, C5 ===================== -/

theorem dropWhile_append_mid (p : Char → Bool) (c : Char) (hc : p c = false) :
    ∀ a b : List Char, List.dropWhile p (a ++ c :: b) = List.dropWhile p a ++ c :: b
  | [], b => by
    simp only [List.nil_append, List.dropWhile_nil]
    exact List.dropWhile_cons_of_neg (by simp [hc])
  | x :: a, b => by
    by_cases hx : p x
    · rw [List.cons_append, List.dropWhile_cons_of_pos hx, List.dropWhile_cons_of_pos hx,
        dropWhile_append_mid p c hc a b]
    · rw [List.cons_append, List.dropWhile_cons_of_neg hx, List.dropWhile_cons_of_neg hx,
        List.cons_append]

theorem trimLeft_append_mid (c : Char) (hc : isWsp c = false) (xs ys : List Char) :
    trimLeft (xs ++ c :: ys) = trimLeft xs ++ c :: ys :=
  dropWhile_append_mid isWsp c hc xs ys

theorem trimRight_append_mid (c : Char) (hc : isWsp c = false) (xs ys : List Char) :
    trimRight (xs ++ c :: ys) = xs ++ c :: trimRight ys := by
  unfold trimRight
  rw [List.reverse_append, List.reverse_cons, List.append_assoc, List.singleton_append,
    dropWhile_append_mid isWsp c hc, List.reverse_append, List.reverse_cons,
    List.reverse_reverse]
  simp

theorem trim_append_mid (c : Char) (hc : isWsp c = false) (xs ys : List Char) :
    trim (xs ++ c :: ys) = trimLeft xs ++ c :: trimRight ys := by
  unfold trim
  rw [trimRight_append_mid c hc, trimLeft_append_mid c hc]

theorem trimRight_idem (s : List Char) : trimRight (trimRight s) = trimRight s :=
  List.rdropWhile_idempotent isWsp s

theorem trim_trimRight (s : List Char) : trim (trimRight s) = trim s := by
  unfold trim
  rw [trimRight_idem]

theorem splitAtSub_mid (c : Char) :
    ∀ xs ys : List Char, c ∉ xs → splitAtSub [c] (xs ++ c :: ys) = some (xs, ys)
  | [], ys, _ => by
    simp [splitAtSub, List.isPrefixOf]
  | x :: xs, ys, h => by
    have hx : ¬(c = x) := fun he => h (he ▸ List.mem_cons_self x xs)
    have hrec := splitAtSub_mid c xs ys (fun hm => h (List.mem_cons_of_mem x hm))
    simp [splitAtSub, List.isPrefixOf, hx, hrec]

theorem not_mem_trimLeft (c : Char) (s : List Char) (h : c ∉ s) : c ∉ trimLeft s :=
  fun hm => h ((List.dropWhile_suffix isWsp).sublist.subset hm)

/-- Claim C2, counterexample: on a value with two colons the code parses
from the text after the first colon (which fails here), while the
spec-modelled last-colon variant succeeds on the bare date after the
second colon. -/
theorem C2_last_colon_counterexample :
    parse_ics_date tzUTC (chars "a:b:20241001") = none ∧
    parse_ics_date_lastColon tzUTC (chars "a:b:20241001") =
      some (naiveTs ⟨2024, 10, 1, 0, 0, 0⟩) :=
  ⟨rfl, rfl⟩

/-- Claim C2 (amended): for every raw value containing at least one colon,
`parse_ics_date` discards everything up to the first colon (of the trimmed
value) and parses the trimmed remainder with the date/time patterns. -/
theorem C2_strip_first_colon (tz : LocalTz) (pre post : List Char) (h : ':' ∉ pre) :
    parse_ics_date tz (pre ++ ':' :: post) = parseIcsValue tz (trim post) := by
  have h2 : ':' ∉ trimLeft pre := not_mem_trimLeft ':' pre h
  have h3 : splitAtSub [':'] (trimLeft pre ++ ':' :: trimRight post) =
      some (trimLeft pre, trimRight post) :=
    splitAtSub_mid ':' (trimLeft pre) (trimRight post) h2
  simp only [parse_ics_date, trim_append_mid ':' (by decide) pre post, h3]
  rw [trim_trimRight]

/-- Witness for C2_strip_first_colon at a parameterized DTSTART value. -/
theorem C2_strip_first_colon_witness :
    parse_ics_date tzUTC (chars "TZID=Europe/Berlin" ++ ':' :: chars "20241001T080000") =
      parseIcsValue tzUTC (trim (chars "20241001T080000")) :=
  C2_strip_first_colon tzUTC (chars "TZID=Europe/Berlin") (chars "20241001T080000")
    (by decide)

/-- Concrete time zone whose lookup is ambiguous everywhere, with the later
candidate listed first; used to exercise the fallback-resolution branch. -/
def tzAmbig : LocalTz :=
  ⟨fun n => .ambiguous (naiveTs n - 3600) (naiveTs n - 7200), fun i => civilOfTs i⟩

/-- Claim C5, counterexample: a value without a trailing Z in the standard
timestamp format is not taken as local time; it is converted from its own
offset. Under a +01:00 local zone the code yields the instant five hours
before the naive reading, not one hour. -/
theorem C5_offset_counterexample :
    parse_ics_date tzPlus1 (chars "x:2024-10-01T08:00:00+05:00") =
      some (naiveTs ⟨2024, 10, 1, 8, 0, 0⟩ - 18000) ∧
    to_local_datetime tzPlus1 ⟨2024, 10, 1, 8, 0, 0⟩ =
      naiveTs ⟨2024, 10, 1, 8, 0, 0⟩ - 3600 ∧
    naiveTs ⟨2024, 10, 1, 8, 0, 0⟩ - 18000 ≠ naiveTs ⟨2024, 10, 1, 8, 0, 0⟩ - 3600 :=
  ⟨rfl, rfl, by decide⟩

/-- Claim C5 (amended): a trailing Z makes the compact-format value a UTC
instant; without Z a compact-format value is interpreted as local time,
where a unique interpretation is used as is, an ambiguous one resolves to
the earlier of the two candidate instants, and a nonexistent one is
reinterpreted as UTC; a value in the standard timestamp format carries its
own offset, which is applied instead of the local zone. -/
theorem C5_timezone_semantics :
    (∀ (tz : LocalTz) (n : NaiveDT) (i : Int),
      tz.lookup n = .single i → to_local_datetime tz n = i) ∧
    (∀ (tz : LocalTz) (n : NaiveDT) (a b : Int),
      tz.lookup n = .ambiguous a b → to_local_datetime tz n = min a b) ∧
    (∀ (tz : LocalTz) (n : NaiveDT),
      tz.lookup n = .nothing → to_local_datetime tz n = naiveTs n) ∧
    (∀ (tz : LocalTz) (v : List Char) (n : NaiveDT),
      parseCompactDateTime v = some n →
      parseIcsValue tz (v ++ ['Z']) = some (naiveTs n)) ∧
    (∀ (tz : LocalTz) (v : List Char) (n : NaiveDT),
      parseCompactDateTime v = none → parseCompactDate v = some n →
      parseIcsValue tz (v ++ ['Z']) = some (naiveTs n)) ∧
    (∀ (tz : LocalTz) (v : List Char) (n : NaiveDT),
      v ≠ [] → v.getLast? ≠ some 'Z' → parseCompactDateTime v = some n →
      parseIcsValue tz v = some (to_local_datetime tz n)) ∧
    (∀ (tz : LocalTz) (v : List Char) (n : NaiveDT),
      v ≠ [] → v.getLast? ≠ some 'Z' → parseCompactDateTime v = none →
      parseCompactDate v = some n →
      parseIcsValue tz v = some (to_local_datetime tz n)) ∧
    (∀ (tz : LocalTz) (v : List Char) (n : NaiveDT) (off : Int),
      v ≠ [] → v.getLast? ≠ some 'Z' → parseCompactDateTime v = none →
      parseCompactDate v = none → parseRfc3339 v = some (n, off) →
      parseIcsValue tz v = some (naiveTs n - off)) := by
  refine ⟨?_, ?_, ?_, ?_, ?_, ?_, ?_, ?_⟩
  · intro tz n i h
    unfold to_local_datetime
    rw [h]
  · intro tz n a b h
    unfold to_local_datetime
    rw [h]
    rw [min_def]
  · intro tz n h
    unfold to_local_datetime
    rw [h]
  · intro tz v n h
    have hne : v ++ ['Z'] ≠ [] := by simp
    have hlast : (v ++ ['Z']).getLast? = some 'Z' := by simp
    simp [parseIcsValue, hne, hlast, List.dropLast_concat, h]
  · intro tz v n h1 h2
    have hne : v ++ ['Z'] ≠ [] := by simp
    have hlast : (v ++ ['Z']).getLast? = some 'Z' := by simp
    simp [parseIcsValue, hne, hlast, List.dropLast_concat, h1, h2]
  · intro tz v n hne hz h
    simp [parseIcsValue, hne, hz, h]
  · intro tz v n hne hz h1 h2
    simp [parseIcsValue, hne, hz, h1, h2]
  · intro tz v n off hne hz h1 h2 h3
    simp [parseIcsValue, hne, hz, h1, h2, h3]

/-- Witness for C5_timezone_semantics: the UTC branch on a concrete compact
value and the ambiguous branch on a concrete fallback zone. -/
theorem C5_timezone_semantics_witness :
    parseIcsValue tzUTC (chars "20241001T080000" ++ ['Z']) =
      some (naiveTs ⟨2024, 10, 1, 8, 0, 0⟩) ∧
    to_local_datetime tzAmbig ⟨2024, 10, 27, 2, 30, 0⟩ =
      min (naiveTs ⟨2024, 10, 27, 2, 30, 0⟩ - 3600)
        (naiveTs ⟨2024, 10, 27, 2, 30, 0⟩ - 7200) :=
  ⟨C5_timezone_semantics.2.2.2.1 tzUTC (chars "20241001T080000")
      ⟨2024, 10, 1, 8, 0, 0⟩ (by decide),
    C5_timezone_semantics.2.1 tzAmbig ⟨2024, 10, 27, 2, 30, 0⟩
      (naiveTs ⟨2024, 10, 27, 2, 30, 0⟩ - 3600)
      (naiveTs ⟨2024, 10, 27, 2, 30, 0⟩ - 7200) rfl⟩

/- ===================== parse_ics (src/parsing/ics.rs) ===================== -/

/-- Zero-padded decimal rendering of a natural number to at least `w`
digits, as chrono's padded numeric format items. -/
def padNat (w n : Nat) : List Char :=
  let ds := Nat.toDigits 10 n
  List.replicate (w - ds.length) '0' ++ ds

/-- Year as rendered by chrono `%Y` (sign handling for negative years;
years above 9999 render unpadded, which only affects inputs no claim
touches). -/
def formatYear (y : Int) : List Char :=
  if y < 0 then '-' :: padNat 4 (-y).toNat else padNat 4 y.toNat

/-- Rendering of `%Y-%m-%d`. -/
def formatDate (n : NaiveDT) : List Char :=
  formatYear n.year ++ '-' :: padNat 2 n.month ++ '-' :: padNat 2 n.day

/-- Rendering of `%H:%M`. -/
def formatTimeHM (n : NaiveDT) : List Char :=
  padNat 2 n.hour ++ ':' :: padNat 2 n.minute

/-- One property of a parsed calendar event, as the `ical` crate's
`Property`: a name and an optional value. -/
structure IcalProperty where
  name : List Char
  value : Option (List Char)
deriving DecidableEq, Repr

/-- One parsed event: its property list. -/
structure IcalEvent where
  properties : List IcalProperty
deriving DecidableEq, Repr

/-- One parsed calendar: its event list. -/
structure IcalCalendar where
  events : List IcalEvent
deriving DecidableEq, Repr

/-- ASCII-case-insensitive string equality, as Rust
`str::eq_ignore_ascii_case`. -/
def eqIgnoreCase (a b : List Char) : Bool :=
  a.map asciiLower == b.map asciiLower

/-- Embeds `property_value` (src/parsing/ics.rs lines 72-80): the value of
the first property whose name matches case-insensitively — returned as the
property's own optional value, so a valueless first match yields `none`
without searching further. -/
def property_value : List IcalProperty → List Char → Option (List Char)
  | [], _ => none
  | p :: rest, name =>
    if eqIgnoreCase p.name (name.map asciiUpper) then p.value
    else property_value rest name

/-- Per-event body of the `parse_ics` loop (src/parsing/ics.rs lines
23-66): reads the six properties, parses the two dates, derives the date,
time, title, location and recurrence fields, and skips the event when both
the date text and the title are empty. -/
def entryOfEvent (tz : LocalTz) (event : IcalEvent) : Option TimetableEntry :=
  let summary := property_value event.properties (chars "SUMMARY")
  let description := property_value event.properties (chars "DESCRIPTION")
  let location := property_value event.properties (chars "LOCATION")
  let dt_start_raw := property_value event.properties (chars "DTSTART")
  let dt_end_raw := property_value event.properties (chars "DTEND")
  let rrule_raw := property_value event.properties (chars "RRULE")
  let dt_start := dt_start_raw.bind (fun v => parse_ics_date tz v)
  let dt_end := dt_end_raw.bind (fun v => parse_ics_date tz v)
  let date_text :=
    match dt_start with
    | some i => formatDate (tz.civil i)
    | none => []
  let time_text :=
    match dt_start, dt_end with
    | some s, some e => formatTimeHM (tz.civil s) ++ chars " - " ++ formatTimeHM (tz.civil e)
    | some s, none => formatTimeHM (tz.civil s)
    | _, _ => []
  let title :=
    match summary.or description with
    | some s => trim s
    | none => []
  let loc :=
    match location with
    | some s => trim s
    | none => []
  let recurrence := rrule_raw.bind recurrence_from_rule
  if date_text = [] ∧ title = [] then none
  else some ⟨date_text, time_text, title, loc, recurrence⟩

/-- Entries contributed by one parser result: a calendar block that failed
to parse contributes nothing, a parsed calendar contributes the entries of
its events in order (src/parsing/ics.rs lines 17-67). -/
def calEntries (tz : LocalTz) : Except Unit IcalCalendar → List TimetableEntry
  | .error _ => []
  | .ok cal => cal.events.filterMap (entryOfEvent tz)

/-- Embeds `parse_ics` (src/parsing/ics.rs lines 8-70). The `ical` crate's
`IcalParser` is external to this repository and is abstracted as the
`icalParse` parameter producing the stream of per-calendar parse results
the `while let` loop consumes. -/
def parse_ics (icalParse : List Char → List (Except Unit IcalCalendar))
    (tz : LocalTz) (content : List Char) : List TimetableEntry :=
  if trim content = [] then []
  else ((icalParse content).map (calEntries tz)).flatten

/-- Boolean test that one parser result carries no events. -/
def calHasNoEvents : Except Unit IcalCalendar → Bool
  | .ok cal => cal.events.isEmpty
  | .error _ => true

/-- Claim C1: whatever the calendar parser produces and whatever the time
zone, every emitted entry has a non-empty date text or a non-empty title. -/
theorem C1_entry_nonempty (icalParse : List Char → List (Except Unit IcalCalendar))
    (tz : LocalTz) (content : List Char) (e : TimetableEntry)
    (he : e ∈ parse_ics icalParse tz content) :
    ¬(e.date = [] ∧ e.title = []) := by
  unfold parse_ics at he
  split at he
  · exact absurd he (List.not_mem_nil e)
  · rcases List.mem_flatten.mp he with ⟨l, hl, hel⟩
    rcases List.mem_map.mp hl with ⟨r, hr, rfl⟩
    cases r with
    | error u => simp [calEntries] at hel
    | ok cal =>
      simp only [calEntries] at hel
      rcases List.mem_filterMap.mp hel with ⟨ev, hev, hsome⟩
      simp only [entryOfEvent] at hsome
      split at hsome
      · exact absurd hsome (by simp)
      · next hcond =>
        obtain rfl : _ = e := Option.some.inj hsome
        exact hcond

/-- Witness for C1_entry_nonempty on a one-event stream whose event has
only a SUMMARY property. -/
theorem C1_entry_nonempty_witness :
    ¬((⟨[], [], chars "Test Event", [], none⟩ : TimetableEntry).date = [] ∧
      (⟨[], [], chars "Test Event", [], none⟩ : TimetableEntry).title = []) :=
  C1_entry_nonempty
    (fun _ => [.ok ⟨[⟨[⟨chars "SUMMARY", some (chars "Test Event")⟩]⟩]⟩])
    tzUTC (chars "BEGIN:VCALENDAR") ⟨[], [], chars "Test Event", [], none⟩
    (by decide)

/-- Claim C6: blank input yields no entries; a stream of event-free
calendars yields no entries; and an unparsable calendar block is skipped,
leaving exactly the entries of the remaining blocks. -/
theorem C6_parse_ics_robust :
    (∀ (icalParse : List Char → List (Except Unit IcalCalendar)) (tz : LocalTz)
      (content : List Char), trim content = [] → parse_ics icalParse tz content = []) ∧
    (∀ (icalParse : List Char → List (Except Unit IcalCalendar)) (tz : LocalTz)
      (content : List Char),
      (∀ r ∈ icalParse content, calHasNoEvents r = true) →
      parse_ics icalParse tz content = []) ∧
    (∀ (s1 s2 : List (Except Unit IcalCalendar)) (tz : LocalTz) (content : List Char),
      parse_ics (fun _ => s1 ++ .error () :: s2) tz content =
        parse_ics (fun _ => s1 ++ s2) tz content) := by
  refine ⟨?_, ?_, ?_⟩
  · intro icalParse tz content h
    simp [parse_ics, h]
  · intro icalParse tz content h
    unfold parse_ics
    split
    · rfl
    · rw [List.flatten_eq_nil_iff]
      intro l hl
      rcases List.mem_map.mp hl with ⟨r, hr, rfl⟩
      cases r with
      | error u => simp [calEntries]
      | ok cal =>
        have hev := h (.ok cal) hr
        simp only [calHasNoEvents] at hev
        simp [calEntries, List.isEmpty_iff.mp hev]
  · intro s1 s2 tz content
    by_cases hc : trim content = []
    · simp [parse_ics, hc]
    · simp [parse_ics, hc, calEntries]

/- ===================== src/parsing/dom.rs ===================== -/

/-- Embeds `normalize_text` (src/parsing/dom.rs lines 258-264). HTML entity
decoding is performed by the external html_escape crate and is abstracted
as the `decodeEnt` parameter; the NBSP replacement and whitespace
normalisation follow the code. -/
def normalize_text (decodeEnt : List Char → List Char) (input : List Char) : List Char :=
  List.intercalate (chars " ")
    (words ((decodeEnt input).map (fun c => if c.toNat = 160 then ' ' else c)))

/-- One anchor element carrying an `href` attribute, with its raw text
content; the document model for the menu-link scan is the list of the
anchors its `a[href]` selector yields, in document order. -/
structure Anchor where
  href : List Char
  text : List Char
deriving DecidableEq, Repr

/-- Abstract interface of the external url crate as used by the code:
parsing an absolute URL, joining a relative reference against a base, and
reading a URL's scheme. -/
structure UrlApi (U : Type) where
  parse : List Char → Option U
  join : U → List Char → Option U
  scheme : U → List Char

/-- Candidate-URL resolution of one href (src/parsing/dom.rs lines
93-106): accept it parsed as absolute when its scheme starts with http,
otherwise try joining against the base under the same scheme test. -/
def resolveHref {U : Type} (api : UrlApi U) (base : U) (href : List Char) : Option U :=
  let fromAbs :=
    match api.parse href with
    | some abs => if (chars "http").isPrefixOf (api.scheme abs) then some abs else none
    | none => none
  match fromAbs with
  | some u => some u
  | none =>
    match api.join base href with
    | some j => if (chars "http").isPrefixOf (api.scheme j) then some j else none
    | none => none

/-- Anchor score (src/parsing/dom.rs lines 72-87): 3 when the lowercased
href contains the flow-id query pattern, else 2 when it contains the
calendar-module identifier, else 1 when the normalised visible text
contains a calendar keyword, else 0. -/
def scoreAnchor (decodeEnt : List Char → List Char) (flow_id : List Char) (a : Anchor) : Int :=
  let href_lower := a.href.map asciiLower
  let text_lower := (normalize_text decodeEnt a.text).map asciiLower
  if containsSub (chars "_flowid=" ++ flow_id.map asciiLower) href_lower then 3
  else if containsSub (chars "individualtimetable") href_lower then 2
  else if containsSub (chars "stundenplan") text_lower
      || containsSub (chars "timetable") text_lower then 1
  else 0

/-- Scored, resolved candidates of the anchor scan, in document order:
anchors with an empty href, score 0, or an unresolvable href contribute
nothing (the `continue` paths of the loop in src/parsing/dom.rs
lines 62-120). -/
def candidatesOf {U : Type} (api : UrlApi U) (decodeEnt : List Char → List Char)
    (anchors : List Anchor) (base : U) (flow_id : List Char) : List (Int × U) :=
  anchors.filterMap (fun a =>
    if a.href = [] then none
    else if scoreAnchor decodeEnt flow_id a = 0 then none
    else (resolveHref api base a.href).map (fun u => (scoreAnchor decodeEnt flow_id a, u)))

/-- Best-candidate update (src/parsing/dom.rs lines 108-120): a later
candidate replaces the current best only when its score is strictly
greater. -/
def updBest {U : Type} : Option (Int × U) → Int × U → Option (Int × U)
  | none, c => some c
  | some b, c => if c.1 > b.1 then some c else some b

/-- Embeds `find_timetable_menu_link` (src/parsing/dom.rs lines 56-124) as
the best-candidate fold over the scored, resolved candidates. -/
def find_timetable_menu_link {U : Type} (api : UrlApi U) (decodeEnt : List Char → List Char)
    (anchors : List Anchor) (base : U) (flow_id : List Char) : Option U :=
  ((candidatesOf api decodeEnt anchors base flow_id).foldl updBest none).map Prod.snd

theorem foldl_updBest_some {U : Type} :
    ∀ (l : List (Int × U)) (b : Int × U),
      ∃ r, l.foldl updBest (some b) = some r ∧
        ((r = b ∧ ∀ x ∈ l, x.1 ≤ b.1) ∨
          (b.1 < r.1 ∧ ∃ pre suf, l = pre ++ r :: suf ∧
            (∀ x ∈ pre, x.1 < r.1) ∧ (∀ x ∈ suf, x.1 ≤ r.1)))
  | [], b => ⟨b, rfl, .inl ⟨rfl, by simp⟩⟩
  | c :: l, b => by
    by_cases hc : c.1 > b.1
    · obtain ⟨r, hr, hcase⟩ := foldl_updBest_some l c
      refine ⟨r, by simpa [updBest, hc] using hr, .inr ?_⟩
      rcases hcase with ⟨rfl, hall⟩ | ⟨hlt, pre, suf, rfl, hpre, hsuf⟩
      · exact ⟨hc, [], l, rfl, by simp, hall⟩
      · have hbc : b.1 < c.1 := hc
        refine ⟨lt_trans hbc hlt, c :: pre, suf, rfl, ?_, hsuf⟩
        intro x hx
        rcases List.mem_cons.mp hx with hxc | hx
        · rw [hxc]
          exact hlt
        · exact hpre x hx
    · obtain ⟨r, hr, hcase⟩ := foldl_updBest_some l b
      refine ⟨r, by simpa [updBest, hc] using hr, ?_⟩
      rcases hcase with ⟨rfl, hall⟩ | ⟨hlt, pre, suf, heq, hpre, hsuf⟩
      · refine .inl ⟨rfl, ?_⟩
        intro x hx
        rcases List.mem_cons.mp hx with hxc | hx
        · rw [hxc]
          exact le_of_not_lt hc
        · exact hall x hx
      · refine .inr ⟨hlt, c :: pre, suf, by rw [heq, List.cons_append], ?_, hsuf⟩
        intro x hx
        rcases List.mem_cons.mp hx with hxc | hx
        · rw [hxc]
          exact lt_of_le_of_lt (le_of_not_lt hc) hlt
        · exact hpre x hx

theorem foldl_updBest_spec {U : Type} (l : List (Int × U)) :
    (l.foldl updBest none = none → l = []) ∧
    (∀ s u, l.foldl updBest none = some (s, u) →
      ∃ pre suf, l = pre ++ (s, u) :: suf ∧
        (∀ x ∈ pre, x.1 < s) ∧ (∀ x ∈ suf, x.1 ≤ s)) := by
  cases l with
  | nil => exact ⟨fun _ => rfl, fun s u h => by cases h⟩
  | cons c l =>
    have hstep : (c :: l).foldl updBest none = l.foldl updBest (some c) := rfl
    constructor
    · intro h
      obtain ⟨r, hr, _⟩ := foldl_updBest_some l c
      rw [hstep, hr] at h
      cases h
    · intro s u h
      obtain ⟨r, hr, hcase⟩ := foldl_updBest_some l c
      rw [hstep, hr] at h
      obtain rfl : r = (s, u) := Option.some.inj h
      rcases hcase with ⟨rfl, hall⟩ | ⟨hlt, pre, suf, rfl, hpre, hsuf⟩
      · exact ⟨[], l, rfl, by simp, hall⟩
      · refine ⟨c :: pre, suf, rfl, ?_, hsuf⟩
        intro x hx
        rcases List.mem_cons.mp hx with rfl | hx
        · exact hlt
        · exact hpre x hx

theorem scoreAnchor_cases (decodeEnt : List Char → List Char)
    (flow_id : List Char) (a : Anchor) :
    scoreAnchor decodeEnt flow_id a = 0 ∨ scoreAnchor decodeEnt flow_id a = 1 ∨
      scoreAnchor decodeEnt flow_id a = 2 ∨ scoreAnchor decodeEnt flow_id a = 3 := by
  simp only [scoreAnchor]
  split_ifs <;> simp

theorem candidatesOf_pos {U : Type} (api : UrlApi U) (decodeEnt : List Char → List Char)
    (anchors : List Anchor) (base : U) (flow_id : List Char) :
    ∀ x ∈ candidatesOf api decodeEnt anchors base flow_id, 0 < x.1 ∧ x.1 ≤ 3 := by
  intro x hx
  rcases List.mem_filterMap.mp hx with ⟨a, _, hsome⟩
  split at hsome
  · cases hsome
  · split at hsome
    · cases hsome
    · next hz =>
      rcases Option.map_eq_some'.mp hsome with ⟨u, _, rfl⟩
      rcases scoreAnchor_cases decodeEnt flow_id a with h | h | h | h
      · exact absurd h hz
      · constructor <;> simp [h]
      · constructor <;> simp [h]
      · constructor <;> simp [h]

/-- Claim C4: the returned URL is always one of the scored resolvable
candidates, its score is positive, every earlier candidate scores strictly
less and every later candidate scores no more (so the strictly highest
score wins independently of order, ties keep the earliest, and score-0
anchors are never returned); no URL is returned only when no candidate
exists. -/
theorem C4_menu_link_selection {U : Type} (api : UrlApi U)
    (decodeEnt : List Char → List Char) (anchors : List Anchor) (base : U)
    (flow_id : List Char) :
    (find_timetable_menu_link api decodeEnt anchors base flow_id = none →
      candidatesOf api decodeEnt anchors base flow_id = []) ∧
    (∀ u, find_timetable_menu_link api decodeEnt anchors base flow_id = some u →
      ∃ s pre suf,
        candidatesOf api decodeEnt anchors base flow_id = pre ++ (s, u) :: suf ∧
        0 < s ∧ s ≤ 3 ∧
        (∀ x ∈ pre, x.1 < s) ∧ (∀ x ∈ suf, x.1 ≤ s)) := by
  constructor
  · intro h
    rcases hf : (candidatesOf api decodeEnt anchors base flow_id).foldl updBest none with _ | r
    · exact (foldl_updBest_spec _).1 hf
    · unfold find_timetable_menu_link at h
      rw [hf] at h
      cases h
  · intro u h
    unfold find_timetable_menu_link at h
    rcases hf : (candidatesOf api decodeEnt anchors base flow_id).foldl updBest none with _ | r
    · rw [hf] at h
      cases h
    · rw [hf] at h
      obtain rfl : r.2 = u := Option.some.inj h
      obtain ⟨pre, suf, heq, hpre, hsuf⟩ :=
        (foldl_updBest_spec _).2 r.1 r.2 (by rwa [Prod.mk.eta])
      have hmem : (r.1, r.2) ∈ candidatesOf api decodeEnt anchors base flow_id := by
        rw [heq]
        simp
      obtain ⟨hpos, hle⟩ := candidatesOf_pos api decodeEnt anchors base flow_id _ hmem
      exact ⟨r.1, pre, suf, heq, hpos, hle, hpre, hsuf⟩

/-- Toy instantiation of the URL interface on plain strings, for the
witness: absolute means an http prefix, joining is concatenation. -/
def toyApi : UrlApi (List Char) :=
  ⟨fun s => if (chars "http").isPrefixOf s then some s else none,
    fun b r => some (b ++ r),
    fun _ => chars "http"⟩

/-- Witness document: a keyword-text anchor first, the flow-id anchor
second, as in the spec's order-independence scenario. -/
def toyAnchors : List Anchor :=
  [⟨chars "/info", chars "My Timetable"⟩,
    ⟨chars "http://portal/start?_flowId=tt-flow", chars "go"⟩]

/-- Witness for C4_menu_link_selection: the flow-id anchor (score 3) wins
over the keyword anchor (score 1) although it comes second. -/
theorem C4_menu_link_selection_witness :
    ∃ s pre suf,
      candidatesOf toyApi id toyAnchors (chars "http://portal") (chars "tt-flow") =
        pre ++ (s, chars "http://portal/start?_flowId=tt-flow") :: suf ∧
      0 < s ∧ s ≤ 3 ∧
      (∀ x ∈ pre, x.1 < s) ∧ (∀ x ∈ suf, x.1 ≤ s) :=
  (C4_menu_link_selection toyApi id toyAnchors (chars "http://portal")
    (chars "tt-flow")).2 (chars "http://portal/start?_flowId=tt-flow") (by decide)

/- ===================== find_credential_fields (src/parsing/dom.rs) ===================== -/

/-- One input element with its optional type and name attributes; the
document model is the list of inputs the `input` selector yields in
document order. -/
structure InputEl where
  typeAttr : Option (List Char)
  nameAttr : Option (List Char)
deriving DecidableEq, Repr

/-- Password-type test of one input: the lowercased type attribute (empty
when absent, as `unwrap_or_default`) equals password. -/
def isPasswordInput (i : InputEl) : Bool :=
  (i.typeAttr.getD []).map asciiLower == chars "password"

/-- Username-type test of one input: the lowercased type attribute equals
text or email. -/
def isUserInput (i : InputEl) : Bool :=
  (i.typeAttr.getD []).map asciiLower == chars "text" ||
    (i.typeAttr.getD []).map asciiLower == chars "email"

/-- The scanning loop of `find_credential_fields` (src/parsing/dom.rs
lines 32-48): each category keeps the first name option it captures; the
capture stores the element's name attribute as an option, so a matching
element without a name leaves the slot unfilled. -/
def credLoop : List InputEl → Option (List Char) → Option (List Char) →
    Option (List Char) × Option (List Char)
  | [], u, p => (u, p)
  | i :: rest, u, p =>
    credLoop rest
      (if isUserInput i && u.isNone then i.nameAttr else u)
      (if isPasswordInput i && p.isNone then i.nameAttr else p)

/-- Embeds `find_credential_fields` (src/parsing/dom.rs lines 28-54): the
scan followed by the literal fallback names. -/
def find_credential_fields (inputs : List InputEl) : List Char × List Char :=
  ((credLoop inputs none none).1.getD (chars "asdf"),
    (credLoop inputs none none).2.getD (chars "fdsa"))

theorem credLoop_pass (inputs : List InputEl)
    (h : ∀ i ∈ inputs, i.nameAttr ≠ none) :
    ∀ u p, (credLoop inputs u p).2 =
      match p with
      | some x => some x
      | none => (inputs.find? isPasswordInput).bind (fun i => i.nameAttr) := by
  induction inputs with
  | nil =>
    intro u p
    cases p <;> rfl
  | cons i rest ih =>
    intro u p
    have hrest : ∀ j ∈ rest, j.nameAttr ≠ none :=
      fun j hj => h j (List.mem_cons_of_mem i hj)
    have hstep : credLoop (i :: rest) u p =
        credLoop rest (if isUserInput i && u.isNone then i.nameAttr else u)
          (if isPasswordInput i && p.isNone then i.nameAttr else p) := rfl
    by_cases hp : isPasswordInput i
    · cases p with
      | some x =>
        have hpif : (if (isPasswordInput i && (some x : Option (List Char)).isNone) = true
            then i.nameAttr else some x) = some x := by simp
        rw [hstep, hpif]
        exact ih hrest _ (some x)
      | none =>
        rcases hn : i.nameAttr with _ | n
        · exact absurd hn (h i (List.mem_cons_self i rest))
        · have hpif : (if (isPasswordInput i && (none : Option (List Char)).isNone) = true
              then i.nameAttr else none) = some n := by simp [hp, hn]
          rw [hstep, hpif, ih hrest _ (some n), List.find?_cons_of_pos _ hp]
          simp [hn]
    · have hpif : (if (isPasswordInput i && p.isNone) = true
          then i.nameAttr else p) = p := by simp [hp]
      rw [hstep, hpif, ih hrest _ p]
      cases p with
      | some x => rfl
      | none => rw [List.find?_cons_of_neg _ hp]

theorem credLoop_user (inputs : List InputEl)
    (h : ∀ i ∈ inputs, i.nameAttr ≠ none) :
    ∀ u p, (credLoop inputs u p).1 =
      match u with
      | some x => some x
      | none => (inputs.find? isUserInput).bind (fun i => i.nameAttr) := by
  induction inputs with
  | nil =>
    intro u p
    cases u <;> rfl
  | cons i rest ih =>
    intro u p
    have hrest : ∀ j ∈ rest, j.nameAttr ≠ none :=
      fun j hj => h j (List.mem_cons_of_mem i hj)
    have hstep : credLoop (i :: rest) u p =
        credLoop rest (if isUserInput i && u.isNone then i.nameAttr else u)
          (if isPasswordInput i && p.isNone then i.nameAttr else p) := rfl
    by_cases hu : isUserInput i
    · cases u with
      | some x =>
        have huif : (if (isUserInput i && (some x : Option (List Char)).isNone) = true
            then i.nameAttr else some x) = some x := by simp
        rw [hstep, huif]
        exact ih hrest (some x) _
      | none =>
        rcases hn : i.nameAttr with _ | n
        · exact absurd hn (h i (List.mem_cons_self i rest))
        · have huif : (if (isUserInput i && (none : Option (List Char)).isNone) = true
              then i.nameAttr else none) = some n := by simp [hu, hn]
          rw [hstep, huif, ih hrest (some n) _, List.find?_cons_of_pos _ hu]
          simp [hn]
    · have huif : (if (isUserInput i && u.isNone) = true
          then i.nameAttr else u) = u := by simp [hu]
      rw [hstep, huif, ih hrest u _]
      cases u with
      | some x => rfl
      | none => rw [List.find?_cons_of_neg _ hu]

/-- Claim C9: on a document whose inputs all carry a name attribute the
returned pair is total and each side is decided independently: the
username field is the name of the first text- or email-typed input (the
literal fallback otherwise), the password field is the name of the first
password-typed input (the literal fallback otherwise). -/
theorem C9_credential_fields (inputs : List InputEl)
    (h : ∀ i ∈ inputs, i.nameAttr ≠ none) :
    (find_credential_fields inputs).1 =
      ((inputs.find? isUserInput).bind (fun i => i.nameAttr)).getD (chars "asdf") ∧
    (find_credential_fields inputs).2 =
      ((inputs.find? isPasswordInput).bind (fun i => i.nameAttr)).getD (chars "fdsa") := by
  constructor
  · show (credLoop inputs none none).1.getD (chars "asdf") = _
    rw [credLoop_user inputs h none none]
  · show (credLoop inputs none none).2.getD (chars "fdsa") = _
    rw [credLoop_pass inputs h none none]

/-- Witness document for C9: a hidden input, then a text input, then a
password input, all named. -/
def credInputsEx : List InputEl :=
  [⟨some (chars "hidden"), some (chars "tok")⟩,
    ⟨some (chars "Text"), some (chars "user")⟩,
    ⟨some (chars "password"), some (chars "pass")⟩]

/-- Witness for C9_credential_fields on the concrete document. -/
theorem C9_credential_fields_witness :
    (find_credential_fields credInputsEx).1 =
      ((credInputsEx.find? isUserInput).bind (fun i => i.nameAttr)).getD (chars "asdf") ∧
    (find_credential_fields credInputsEx).2 =
      ((credInputsEx.find? isPasswordInput).bind (fun i => i.nameAttr)).getD (chars "fdsa") :=
  C9_credential_fields credInputsEx (by decide)

/- ===================== extract_flow_key_from_str (src/parsing/dom.rs) ===================== -/

/-- The flow-key query marker searched for by the extraction code. -/
def flowKeyMarker : List Char := chars "_flowExecutionKey="

/-- The raw-text fallback of the extraction (src/parsing/dom.rs lines
241-250): find the first marker occurrence and return the following
maximal ASCII-alphanumeric run when it is non-empty. -/
def flowKeySubstring (input : List Char) : Option (List Char) :=
  (splitAtSub flowKeyMarker input).bind (fun p =>
    if p.2.takeWhile isAsciiAlnum = [] then none
    else some (p.2.takeWhile isAsciiAlnum))

/-- Embeds `extract_flow_key_from_str` (src/parsing/dom.rs lines 232-252).
The url crate is abstracted as the `parseQ` parameter modelling
`Url::parse` followed by `query_pairs()`: on a parsed URL the value of the
first pair whose key is the flow-key name is returned as is (even empty);
otherwise the raw text is searched with the substring fallback. -/
def extract_flow_key_from_str
    (parseQ : List Char → Option (List (List Char × List Char)))
    (input : List Char) : Option (List Char) :=
  match parseQ input with
  | some pairs =>
    match pairs.find? (fun kv => kv.1 == chars "_flowExecutionKey") with
    | some kv => some kv.2
    | none => flowKeySubstring input
  | none => flowKeySubstring input

/-- Concrete model of the external url crate for the absolute-URL branch:
recognises http and https URLs, splits the part after the first question
mark on ampersands and each segment at its first equals sign
(percent-decoding is not modelled; the inputs used here contain no
escapes). -/
def urlParseQ (s : List Char) : Option (List (List Char × List Char)) :=
  if (chars "http://").isPrefixOf s || (chars "https://").isPrefixOf s then
    some
      (match splitAtSub ['?'] s with
        | some p =>
          ((splitOnChar '&' p.2).filter (fun seg => !seg.isEmpty)).map
            (fun seg =>
              match splitAtSub ['='] seg with
              | some kv => (kv.1, kv.2)
              | none => (seg, []))
        | none => [])
  else none

theorem isPrefixOf_true_iff :
    ∀ p s : List Char, p.isPrefixOf s = true ↔ ∃ t, s = p ++ t
  | [], s => by
    simp [List.isPrefixOf]
  | c :: p, [] => by
    simp [List.isPrefixOf]
  | c :: p, d :: s => by
    rw [List.isPrefixOf]
    simp only [Bool.and_eq_true, beq_iff_eq]
    constructor
    · rintro ⟨rfl, h2⟩
      obtain ⟨t, rfl⟩ := (isPrefixOf_true_iff p s).mp h2
      exact ⟨t, rfl⟩
    · rintro ⟨t, ht⟩
      rw [List.cons_append] at ht
      injection ht with h1 h2
      exact ⟨h1.symm, (isPrefixOf_true_iff p s).mpr ⟨t, h2⟩⟩

theorem splitAtSub_sound (pat : List Char) :
    ∀ s b a : List Char, splitAtSub pat s = some (b, a) → s = b ++ pat ++ a
  | [], b, a => by
    intro h
    rw [splitAtSub] at h
    split at h
    · next hpre =>
      obtain ⟨t, ht⟩ := (isPrefixOf_true_iff pat []).mp hpre
      rcases List.append_eq_nil.mp ht.symm with ⟨rfl, rfl⟩
      obtain ⟨rfl, rfl⟩ : b = [] ∧ a = [] := by
        cases Option.some.inj h
        exact ⟨rfl, rfl⟩
      rfl
    · cases h
  | c :: rest, b, a => by
    intro h
    rw [splitAtSub] at h
    split at h
    · next hpre =>
      obtain ⟨t, ht⟩ := (isPrefixOf_true_iff pat (c :: rest)).mp hpre
      obtain ⟨rfl, rfl⟩ : b = [] ∧ a = (c :: rest).drop pat.length := by
        cases Option.some.inj h
        exact ⟨rfl, rfl⟩
      rw [ht, List.drop_left, List.nil_append]
    · next hpre =>
      rcases hsp : splitAtSub pat rest with _ | q
      · rw [hsp] at h
        cases h
      · rw [hsp] at h
        obtain ⟨rfl, rfl⟩ : b = c :: q.1 ∧ a = q.2 := by
          cases Option.some.inj h
          exact ⟨rfl, rfl⟩
        have := splitAtSub_sound pat rest q.1 q.2 (by rw [hsp])
        rw [this]
        simp

theorem splitAtSub_minimal (pat : List Char) :
    ∀ s b a : List Char, splitAtSub pat s = some (b, a) →
      ∀ b2 a2 : List Char, s = b2 ++ pat ++ a2 → b.length ≤ b2.length
  | [], b, a => by
    intro h b2 a2 _
    rw [splitAtSub] at h
    split at h
    · obtain ⟨rfl, rfl⟩ : b = [] ∧ a = [] := by
        cases Option.some.inj h
        exact ⟨rfl, rfl⟩
      simp
    · cases h
  | c :: rest, b, a => by
    intro h b2 a2 heq
    rw [splitAtSub] at h
    split at h
    · obtain ⟨rfl, rfl⟩ : b = [] ∧ a = (c :: rest).drop pat.length := by
        cases Option.some.inj h
        exact ⟨rfl, rfl⟩
      simp
    · next hpre =>
      rcases hsp : splitAtSub pat rest with _ | q
      · rw [hsp] at h
        cases h
      · rw [hsp] at h
        obtain ⟨rfl, rfl⟩ : b = c :: q.1 ∧ a = q.2 := by
          cases Option.some.inj h
          exact ⟨rfl, rfl⟩
        cases b2 with
        | nil =>
          exfalso
          rw [List.nil_append] at heq
          exact hpre ((isPrefixOf_true_iff pat (c :: rest)).mpr ⟨a2, heq⟩)
        | cons c2 b2 =>
          rw [List.cons_append, List.cons_append] at heq
          injection heq with h1 h2
          have := splitAtSub_minimal pat rest q.1 q.2 (by rw [hsp]) b2 a2 h2
          simpa using Nat.succ_le_succ this

theorem dropWhile_cons_not (p : Char → Bool) :
    ∀ (a : List Char) (c : Char) (t : List Char),
      List.dropWhile p a = c :: t → p c = false
  | [], c, t => by
    intro h
    cases h
  | x :: a, c, t => by
    intro h
    by_cases hx : p x
    · rw [List.dropWhile_cons_of_pos hx] at h
      exact dropWhile_cons_not p a c t h
    · rw [List.dropWhile_cons_of_neg hx] at h
      injection h with h1 _
      rw [← h1]
      exact Bool.of_not_eq_true hx

/-- Claim C10: when the input does not parse as a URL, any returned key is
the non-empty maximal ASCII-alphanumeric run immediately after the first
occurrence of the flow-key marker; and on an absolute URL carrying an
empty flow-key query parameter the function returns the empty key. -/
theorem C10_flow_key_branches :
    (∀ (parseQ : List Char → Option (List (List Char × List Char))) (s k : List Char),
      parseQ s = none →
      extract_flow_key_from_str parseQ s = some k →
      k ≠ [] ∧ (∀ c ∈ k, isAsciiAlnum c = true) ∧
      ∃ pre suf, s = pre ++ flowKeyMarker ++ (k ++ suf) ∧
        (∀ pre2 suf2, s = pre2 ++ flowKeyMarker ++ suf2 → pre.length ≤ pre2.length) ∧
        (∀ c t, suf = c :: t → isAsciiAlnum c = false)) ∧
    extract_flow_key_from_str urlParseQ (chars "http://example.com/?_flowExecutionKey=") =
      some [] := by
  constructor
  · intro parseQ s k hq hx
    have hx2 : flowKeySubstring s = some k := by
      unfold extract_flow_key_from_str at hx
      rw [hq] at hx
      exact hx
    unfold flowKeySubstring at hx2
    rcases hsp : splitAtSub flowKeyMarker s with _ | p
    · rw [hsp, Option.none_bind] at hx2
      cases hx2
    · rw [hsp, Option.some_bind] at hx2
      by_cases hne : p.2.takeWhile isAsciiAlnum = []
      · rw [if_pos hne] at hx2
        cases hx2
      · rw [if_neg hne] at hx2
        obtain rfl : p.2.takeWhile isAsciiAlnum = k := Option.some.inj hx2
        refine ⟨hne, ?_, p.1, p.2.dropWhile isAsciiAlnum, ?_, ?_, ?_⟩
        · intro c hc
          exact List.mem_takeWhile_imp hc
        · have hs := splitAtSub_sound flowKeyMarker s p.1 p.2 (by rw [hsp])
          rw [hs, List.takeWhile_append_dropWhile]
        · intro pre2 suf2 h2
          exact splitAtSub_minimal flowKeyMarker s p.1 p.2 (by rw [hsp]) pre2 suf2 h2
        · intro c t hct
          exact dropWhile_cons_not isAsciiAlnum p.2 c t hct
  · rfl

/-- Witness for the substring branch of C10_flow_key_branches on a
non-URL input whose key run is closed by a non-alphanumeric character. -/
theorem C10_flow_key_branches_witness :
    chars "e1s2" ≠ [] ∧ (∀ c ∈ chars "e1s2", isAsciiAlnum c = true) ∧
    ∃ pre suf, chars "go?_flowExecutionKey=e1s2!x" =
        pre ++ flowKeyMarker ++ (chars "e1s2" ++ suf) ∧
      (∀ pre2 suf2, chars "go?_flowExecutionKey=e1s2!x" = pre2 ++ flowKeyMarker ++ suf2 →
        pre.length ≤ pre2.length) ∧
      (∀ c t, suf = c :: t → isAsciiAlnum c = false) :=
  C10_flow_key_branches.1 (fun _ => none) (chars "go?_flowExecutionKey=e1s2!x")
    (chars "e1s2") rfl (by decide)

/-- Witness for C6_parse_ics_robust: an event-free calendar followed by a
failed block yields no entries. -/
theorem C6_parse_ics_robust_witness :
    parse_ics (fun _ => [.ok ⟨[]⟩, .error ()]) tzUTC (chars "BEGIN:VCALENDAR") = [] :=
  C6_parse_ics_robust.2.1 (fun _ => [.ok ⟨[]⟩, .error ()]) tzUTC
    (chars "BEGIN:VCALENDAR") (by decide)
